import Mathlib

/-!
Verification of the documentation-build engine of the Speech2Code repository
(`src/spoken/src/build/build-docs.js`).

The JavaScript source is shallowly embedded: strings are Lean `String`s
(sequences of characters), JS `String.prototype.split('\n')` and
`Array.prototype.join('\n')` are modelled character-exactly on `List Char`,
and JS functions that may throw are modelled with `Option`/`Except`.
-/

set_option autoImplicit false

namespace Speech2Code

universe u v

/-! ### Character-level modelling of JS `split('\n')`, `join('\n')`, `trim()`, `startsWith()` -/

/-- Helper for `splitNl`: returns the first chunk (up to the first newline)
and the list of remaining chunks.  Models the chunk structure of JS
`s.split('\n')`. -/
def splitNlAux : List Char → List Char × List (List Char)
  | [] => ([], [])
  | c :: cs =>
    let r := splitNlAux cs
    if c = '\n' then ([], r.1 :: r.2) else (c :: r.1, r.2)

/-- The list of newline-separated chunks of a character list; models JS
`s.split('\n')` (in particular `splitNl [] = [[]]`, matching
`''.split('\n') === ['']`). -/
def splitNl (cs : List Char) : List (List Char) :=
  (splitNlAux cs).1 :: (splitNlAux cs).2

/-- Models JS `lines.join('\n')` on character lists. -/
def joinNlChar : List (List Char) → List Char
  | [] => []
  | [l] => l
  | l :: l' :: ls => l ++ '\n' :: joinNlChar (l' :: ls)

/-- Models `content.split('\n')` at the `String` level. -/
def splitLines (s : String) : List String :=
  (splitNl s.data).map String.mk

/-- Models `lines.join('\n')` at the `String` level. -/
def joinLines (ls : List String) : String :=
  String.mk (joinNlChar (ls.map String.data))

/-- ASCII whitespace, the fragment of JS `String.prototype.trim`'s whitespace
class relevant to the automaton files. -/
def isSpaceChar (c : Char) : Bool :=
  c == ' ' || c == '\t' || c == '\n' || c == '\r' || c == '\x0B' || c == '\x0C'

/-- Models JS `s.trim()` on a character list: strip leading and trailing
whitespace. -/
def trimChars (cs : List Char) : List Char :=
  ((cs.dropWhile isSpaceChar).reverse.dropWhile isSpaceChar).reverse

/-- Models JS `s.startsWith(pat)`: first argument the string, second the
pattern. -/
def startsWithChars : List Char → List Char → Bool
  | _, [] => true
  | [], _ :: _ => false
  | c :: cs, p :: ps => c == p && startsWithChars cs ps

/-- Models `a.trim().startsWith('// START GENERATED')` from `SpokenModule.buildGraph`. -/
def isStartMarker (l : String) : Bool :=
  startsWithChars (trimChars l.data) ("// START GENERATED".data)

/-- Models `a.trim().startsWith('// END GENERATED')` from `SpokenModule.buildGraph`. -/
def isEndMarker (l : String) : Bool :=
  startsWithChars (trimChars l.data) ("// END GENERATED".data)

/-- Models JS `Array.prototype.findIndex` (`none` standing for `-1`). -/
def findLineIdx (p : String → Bool) : List String → Option Nat
  | [] => none
  | l :: ls => if p l then some 0 else (findLineIdx p ls).map (· + 1)

/-- Models JS `Array.prototype.map((item, index) => f index item)` started at
index `k`. -/
def mapWithIndex {α : Type u} {β : Type v} (f : Nat → α → β) : Nat → List α → List β
  | _, [] => []
  | k, x :: xs => f k x :: mapWithIndex f (k + 1) xs

/-! ### `SpokenModule.buildGraph` (the module graph composer) -/

/-- The generated transition line
`` `    0 -> ${(index + 1)} [label="(${item.name})"];` ``
from `SpokenModule.buildGraph`. -/
def transitionLine (index : Nat) (name : String) : String :=
  "    0 -> " ++ toString (index + 1) ++ " [label=\"(" ++ name ++ ")\"];"

/-- The lines `this.commands.map((item, index) => ...)` generated by the
composer for the command-name list. -/
def generatedLines (commandNames : List String) : List String :=
  mapWithIndex transitionLine 0 commandNames

/-- The composer `SpokenModule.buildGraph`, as a function from the automaton file content
(and the module's command names) to the content written back.  The JS code
reads the file, splits on `'\n'`, locates the first lines whose trimmed text
starts with the two markers, and either leaves the file unchanged (warning
branch) or splices the generated transition lines strictly between the
markers. -/
def buildGraph (commandNames : List String) (content : String) : String :=
  match findLineIdx isStartMarker (splitLines content), findLineIdx isEndMarker (splitLines content) with
  | some b, some e =>
    if b > e then content
    else
      joinLines ((splitLines content).take (b + 1) ++ generatedLines commandNames
        ++ (splitLines content).drop e)
  | _, _ => content

/-- True exactly when `SpokenModule.buildGraph` takes its warning branch
(`console.warn('Could not mount module documentation')`) and returns without
touching the file. -/
def composeSkipped (content : String) : Bool :=
  match findLineIdx isStartMarker (splitLines content), findLineIdx isEndMarker (splitLines content) with
  | some b, some e => b > e
  | _, _ => true

/-! ### Stored phrase lists (`main`, line 29) -/

/-- Deduplication keeping the first occurrence of each string, as a JS `Set`
built in traversal order would. -/
def dedupFirst : List String → List String
  | [] => []
  | x :: xs => x :: (dedupFirst xs).filter (fun y => y ≠ x)

/-- Modelled from the spec: `allRecognizablePhrases` lives in
`build-utils.js`, which is not among the visible sources.  Per the spec it
walks the automaton in a deterministic traversal order and yields the
deduplicated candidate phrases; we model it as first-occurrence
deduplication applied to the abstract traversal enumeration. -/
def allRecognizablePhrases (traversal : List String) : List String :=
  dedupFirst traversal

/-- The phrase list `main` stores on each automaton:
`allRecognizablePhrases(graph, spoken.templates).slice(0, 16)`. -/
def storedPhrases (traversal : List String) : List String :=
  (allRecognizablePhrases traversal).take 16

/-! ### `Command.buildReadme` / `Command.buildLangSection` / `i18n` -/

/-- The per-automaton data `main` populates on each entry of
`command.automatas` before `command.buildReadme()` runs (file-system paths
are irrelevant to the claims and omitted). -/
structure AutomataDoc where
  relativeImagePath : String
  phrases : List String
  title : String
  desc : String
  langName : String
  lang : String

/-- The `Command` build-time object: its directory name, the content of its
`impl.ts` source file, and its per-language automata. -/
structure Command where
  name : String
  code : String
  automatas : List AutomataDoc

/-- One entry of the `i18n` table: the two localized sentence builders. -/
structure I18nEntry where
  automataMsg : String → String
  phrasesMsg : String → String

/-- The `i18n` table.  JS indexing `i18n[automata.lang]` yields `undefined`
for any other locale (so that the subsequent property access throws); this is
modelled with `Option`. -/
def i18n (lang : String) : Option I18nEntry :=
  if lang = "en-US" then
    some
      { automataMsg := fun cName =>
          "The following automata is responsible for recognizing the command `" ++ cName ++ "` in english:"
        phrasesMsg := fun cName =>
          "The following are some examples of phrases, in english, used to trigger the command `" ++ cName ++ "`:" }
  else if lang = "pt-BR" then
    some
      { automataMsg := fun cName =>
          "O automata seguinte é reponsável por reconhecer o comando `" ++ cName ++ "` em português:"
        phrasesMsg := fun cName =>
          "Os seguintes exemplos de frases, em português, podem ser usadas para ativar o comando `" ++ cName ++ "`:" }
  else none

/-- Total variant of `i18n` used only to state theorems about the successful
case. -/
def i18nD (lang : String) : I18nEntry :=
  (i18n lang).getD ⟨fun _ => "", fun _ => ""⟩

/-- The numbered phrase list
`automata.phrases.map((item, index) => (index + 1) + '. ' + item)` of
`Command.buildLangSection`. -/
def numberedPhraseLines (phrases : List String) : List String :=
  mapWithIndex (fun index item => toString (index + 1) ++ ". " ++ item) 0 phrases

/-- The five strings `Command.buildLangSection` pushes for one automaton. -/
def langBlock (entry : I18nEntry) (a : AutomataDoc) : List String :=
  ["#### " ++ a.langName,
   entry.automataMsg a.title,
   "![" ++ a.langName ++ "](" ++ a.relativeImagePath ++ ")",
   entry.phrasesMsg a.title,
   String.intercalate "\n" (numberedPhraseLines a.phrases)]

/-- The loop of `Command.buildLangSection`; `none` models the `TypeError`
thrown by `i18n[automata.lang].automata(...)` when the locale is unknown. -/
def langSectionParts : List AutomataDoc → Option (List String)
  | [] => some []
  | a :: rest =>
    match i18n a.lang with
    | none => none
    | some entry => (langSectionParts rest).map (fun tail => langBlock entry a ++ tail)

/-- The method `Command.buildLangSection`. -/
def buildLangSection (c : Command) : Option String :=
  (langSectionParts c.automatas).map (String.intercalate "\n\n")

/-- JS `s.substr(0, n)`. -/
def substrTake (s : String) (n : Nat) : String :=
  ⟨s.data.take n⟩

/-- The method `Command.buildReadme`.  Here `none` models the two ways the JS method throws:
`this.automatas.find(item => item.lang === 'en-US')` returning `undefined`
(so `autom.title` throws), and `buildLangSection` hitting an unsupported
locale. -/
def buildReadme (c : Command) : Option String :=
  match c.automatas.find? (fun a => a.lang == "en-US") with
  | none => none
  | some autom =>
    match buildLangSection c with
    | none => none
    | some langSection =>
      some (String.intercalate "\n\n"
        ["## " ++ autom.title,
         autom.desc,
         "### Languages",
         "This command is available in the following languages",
         langSection,
         "### Implementation",
         "The full implementation of this command can be found on this directory under the file [impl.ts](impl.ts)",
         "```typescript\n" ++ substrTake c.code 300,
         "(...)\n```"])

/-! ### The `main` pipeline: error propagation (C5) and step ordering (C6) -/

/-- A command as `main` sees it: its name and the identifiers of its
per-language automaton files. -/
structure CmdSpec where
  name : String
  automatas : List String
  deriving DecidableEq

/-- A module as `main` sees it: its name and its commands. -/
structure ModSpec where
  name : String
  commands : List CmdSpec
  deriving DecidableEq

/-- The observable units of work `main` completes. -/
inductive BuildEvent where
  | wroteCommandReadme (modName cmdName : String)
  | wroteModuleGraph (modName : String)
  | wroteModuleReadme (modName : String)
  deriving DecidableEq

/-- The body of `main`'s innermost loop for one command.  Each iteration
awaits `automataToImage`, parses the automaton with `dot.read` and runs
`allRecognizablePhrases` — all three live outside the visible sources and may
throw (e.g. `GraphLoadError`); they are modelled by a single `Except`-valued
step function per automaton.  `main` contains no `try`/`catch`, so the first
error propagates. -/
def processAutomatas (step : String → Except String Unit) : List String → Except String Unit
  | [] => .ok ()
  | a :: rest =>
    match step a with
    | .error e => .error e
    | .ok _ => processAutomatas step rest

/-- The `for (const command of moduleA.commands)` loop of `main`: after a
command's automata are processed its README is written; an uncaught error
stops the loop.  Returns the completed units of work and the propagated
error, if any. -/
def runCommands (step : String → Except String Unit) (modName : String) :
    List CmdSpec → List BuildEvent × Option String
  | [] => ([], none)
  | c :: rest =>
    match processAutomatas step c.automatas with
    | .error e => ([], some e)
    | .ok _ =>
      let r := runCommands step modName rest
      (.wroteCommandReadme modName c.name :: r.1, r.2)

/-- One iteration of `main`'s outer loop: commands first, then
`moduleA.buildGraph()`, the module image and the module README. -/
def runModule (step : String → Except String Unit) (m : ModSpec) :
    List BuildEvent × Option String :=
  match runCommands step m.name m.commands with
  | (evs, some e) => (evs, some e)
  | (evs, none) => (evs ++ [.wroteModuleGraph m.name, .wroteModuleReadme m.name], none)

/-- The `for (const moduleA of spoken.modules)` loop of `main`.  With no
`try`/`catch` anywhere in `main`, an error thrown in one module's processing
aborts every later module. -/
def mainRun (step : String → Except String Unit) : List ModSpec → List BuildEvent × Option String
  | [] => ([], none)
  | m :: rest =>
    match runModule step m with
    | (evs, some e) => (evs, some e)
    | (evs, none) =>
      let r := mainRun step rest
      (evs ++ r.1, r.2)

/-- Concrete English automaton fixture used by witnesses. -/
def enAutomata : AutomataDoc :=
  ⟨"phrase_en-US.png", ["open file", "open folder"], "Open", "Opens a file", "English", "en-US"⟩

/-- Concrete Portuguese automaton fixture used by witnesses. -/
def ptAutomata : AutomataDoc :=
  ⟨"phrase_pt-BR.png", ["abrir arquivo"], "Abrir", "Abre um arquivo", "Português", "pt-BR"⟩

/-- Concrete command fixture used by witnesses. -/
def openCommand : Command :=
  ⟨"open", "export function openFile() \x7b \x7d", [enAutomata, ptAutomata]⟩

/-- The individual steps `main` performs, tagged by module, command and
automaton position. -/
inductive PipelineEvent where
  | automataImage (mi ci ai : Nat)
  | automataLoad (mi ci ai : Nat)
  | commandReadme (mi ci : Nat)
  | moduleGraph (mi : Nat)
  | moduleImage (mi : Nat)
  | moduleReadme (mi : Nat)
  deriving DecidableEq

/-- The steps of `main`'s innermost loop plus the command README write, for
the command at position `ci` of module `mi` with `autCount` automata. -/
def commandSteps (mi ci autCount : Nat) : List PipelineEvent :=
  (List.range autCount).flatMap (fun ai => [.automataImage mi ci ai, .automataLoad mi ci ai])
    ++ [.commandReadme mi ci]

/-- The steps of one iteration of `main`'s outer loop for module `mi`, whose
commands have the given automata counts: all command steps, then
`buildGraph`, the module image and the module README. -/
def moduleSteps (mi : Nat) (cmdAutCounts : List Nat) : List PipelineEvent :=
  (mapWithIndex (fun ci autCount => commandSteps mi ci autCount) 0 cmdAutCounts).flatten
    ++ [.moduleGraph mi, .moduleImage mi, .moduleReadme mi]

/-- Helper for `mainTrace`: concatenate the per-module step blocks. -/
def mainTraceAux : List (Nat × List Nat) → List PipelineEvent
  | [] => []
  | (mi, cmds) :: rest => moduleSteps mi cmds ++ mainTraceAux rest

/-- The full ordered trace of steps `main` performs, for a list of modules
given by the automata counts of their commands. -/
def mainTrace (modules : List (List Nat)) : List PipelineEvent :=
  mainTraceAux (mapWithIndex (fun mi cmds => (mi, cmds)) 0 modules)

/-- The module index an event belongs to. -/
def evModuleIdx : PipelineEvent → Nat
  | .automataImage mi _ _ => mi
  | .automataLoad mi _ _ => mi
  | .commandReadme mi _ => mi
  | .moduleGraph mi => mi
  | .moduleImage mi => mi
  | .moduleReadme mi => mi

/-- Command-scoped steps of module `mi`: automaton image rendering, automaton
loading/phrase storage, command README write. -/
def isCommandStep (mi : Nat) : PipelineEvent → Bool
  | .automataImage m _ _ => m == mi
  | .automataLoad m _ _ => m == mi
  | .commandReadme m _ => m == mi
  | _ => false

/-- Module-scoped steps of module `mi`: automaton composition, module image
rendering, module README write. -/
def isModuleStep (mi : Nat) : PipelineEvent → Bool
  | .moduleGraph m => m == mi
  | .moduleImage m => m == mi
  | .moduleReadme m => m == mi
  | _ => false

/-! ## Lemmas: line splitting and joining -/

theorem splitNl_ne_nil (cs : List Char) : splitNl cs ≠ [] := by
  simp [splitNl]

theorem splitNlAux_append_newline (a b : List Char) :
    splitNlAux (a ++ '\n' :: b) = ((splitNlAux a).1, (splitNlAux a).2 ++ splitNl b) := by
  induction a with
  | nil => simp [splitNlAux, splitNl]
  | cons c cs ih =>
    by_cases h : c = '\n' <;> simp [splitNlAux, ih, h]

theorem splitNl_append_newline (a b : List Char) :
    splitNl (a ++ '\n' :: b) = splitNl a ++ splitNl b := by
  simp [splitNl, splitNlAux_append_newline]

theorem joinNlChar_cons_cons (l l' : List Char) (ls : List (List Char)) :
    joinNlChar (l :: l' :: ls) = l ++ '\n' :: joinNlChar (l' :: ls) := rfl

theorem joinNlChar_splitNl (cs : List Char) : joinNlChar (splitNl cs) = cs := by
  induction cs with
  | nil => rfl
  | cons c cs ih =>
    by_cases h : c = '\n'
    · subst h
      have hcons : splitNl ('\n' :: cs) = [] :: splitNl cs := by
        simp [splitNl, splitNlAux]
      rw [hcons, splitNl] at *
      rw [joinNlChar_cons_cons]
      simpa using ih
    · have hcons : splitNl (c :: cs) = (c :: (splitNlAux cs).1) :: (splitNlAux cs).2 := by
        simp [splitNl, splitNlAux, h]
      rw [hcons]
      rcases htail : (splitNlAux cs).2 with _ | ⟨y, ys⟩
      · have : splitNl cs = [(splitNlAux cs).1] := by rw [splitNl, htail]
        rw [this] at ih
        simpa [joinNlChar] using congrArg (c :: ·) ih
      · have : splitNl cs = (splitNlAux cs).1 :: y :: ys := by rw [splitNl, htail]
        rw [this] at ih
        rw [joinNlChar_cons_cons] at ih ⊢
        simpa using congrArg (c :: ·) ih

theorem splitNlAux_no_newline (cs : List Char) :
    '\n' ∉ (splitNlAux cs).1 ∧ ∀ l ∈ (splitNlAux cs).2, '\n' ∉ l := by
  induction cs with
  | nil => simp [splitNlAux]
  | cons c cs ih =>
    by_cases h : c = '\n'
    · subst h
      refine ⟨by simp [splitNlAux], ?_⟩
      intro l hl
      simp [splitNlAux] at hl
      rcases hl with rfl | hl
      · exact ih.1
      · exact ih.2 l hl
    · refine ⟨?_, ?_⟩
      · simp only [splitNlAux, if_neg h, List.mem_cons]
        rintro (hc | hc)
        · exact h hc.symm
        · exact ih.1 hc
      · intro l hl
        simp only [splitNlAux, if_neg h] at hl
        exact ih.2 l hl

theorem mem_splitNl_no_newline {cs : List Char} {l : List Char} (hl : l ∈ splitNl cs) :
    '\n' ∉ l := by
  rcases hl with _ | hl
  · exact (splitNlAux_no_newline cs).1
  · exact (splitNlAux_no_newline cs).2 l (by assumption)

theorem splitNl_of_no_newline {cs : List Char} (h : '\n' ∉ cs) : splitNl cs = [cs] := by
  induction cs with
  | nil => rfl
  | cons c cs ih =>
    have hc : c ≠ '\n' := fun hc => h (hc ▸ List.mem_cons_self c cs)
    have hcs : '\n' ∉ cs := fun hcs => h (List.mem_cons_of_mem c hcs)
    have := ih hcs
    simp [splitNl, splitNlAux, hc] at this ⊢
    exact ⟨this.1, this.2⟩

theorem splitNl_joinNlChar (LS : List (List Char)) (hne : LS ≠ [])
    (hnl : ∀ l ∈ LS, '\n' ∉ l) : splitNl (joinNlChar LS) = LS := by
  induction LS with
  | nil => exact absurd rfl hne
  | cons l ls ih =>
    rcases ls with _ | ⟨l', ls'⟩
    · simpa [joinNlChar] using splitNl_of_no_newline (hnl l (by simp))
    · rw [joinNlChar_cons_cons, splitNl_append_newline,
        splitNl_of_no_newline (hnl l (by simp)),
        ih (by simp) (fun x hx => hnl x (List.mem_cons_of_mem l hx))]
      rfl

theorem mk_data (s : String) : String.mk s.data = s := rfl

theorem splitLines_joinLines (LS : List String) (hne : LS ≠ [])
    (hnl : ∀ s ∈ LS, '\n' ∉ s.data) : splitLines (joinLines LS) = LS := by
  unfold splitLines joinLines
  rw [splitNl_joinNlChar (LS.map String.data) (by simpa using hne)
    (by intro l hl; rcases List.mem_map.1 hl with ⟨s, hs, rfl⟩; exact hnl s hs)]
  rw [List.map_map]
  have hid : (String.mk ∘ String.data) = id := funext fun s => rfl
  rw [hid, List.map_id]

theorem mem_splitLines_no_newline {s s' : String} (h : s' ∈ splitLines s) :
    '\n' ∉ s'.data := by
  rcases List.mem_map.1 h with ⟨l, hl, rfl⟩
  exact mem_splitNl_no_newline hl

/-! ## Lemmas: `findLineIdx` -/

section FindLineIdx

variable {p : String → Bool}

theorem findLineIdx_lt_length {l : List String} {n : Nat}
    (h : findLineIdx p l = some n) : n < l.length := by
  induction l generalizing n with
  | nil => simp [findLineIdx] at h
  | cons x xs ih =>
    by_cases hx : p x
    · simp [findLineIdx, hx] at h
      simp only [List.length_cons]
      omega
    · simp [findLineIdx, hx] at h
      rcases h with ⟨m, hm, rfl⟩
      have := ih hm
      simp only [List.length_cons]
      omega

theorem findLineIdx_getElem {l : List String} {n : Nat}
    (h : findLineIdx p l = some n) : ∃ x, l[n]? = some x ∧ p x = true := by
  induction l generalizing n with
  | nil => simp [findLineIdx] at h
  | cons x xs ih =>
    by_cases hx : p x
    · simp [findLineIdx, hx] at h
      subst h
      exact ⟨x, by simp, hx⟩
    · simp [findLineIdx, hx] at h
      rcases h with ⟨m, hm, rfl⟩
      rcases ih hm with ⟨y, hy, hp⟩
      exact ⟨y, by simpa using hy, hp⟩

theorem findLineIdx_before {l : List String} {n : Nat}
    (h : findLineIdx p l = some n) :
    ∀ m x, m < n → l[m]? = some x → p x = false := by
  induction l generalizing n with
  | nil => simp [findLineIdx] at h
  | cons y xs ih =>
    intro m x hm hx
    by_cases hy : p y
    · exfalso
      simp [findLineIdx, hy] at h
      omega
    · simp [findLineIdx, hy] at h
      rcases h with ⟨k, hk, rfl⟩
      rcases m with _ | m'
      · simp at hx
        subst hx
        simpa using hy
      · exact ih hk m' x (by omega) (by simpa using hx)

theorem findLineIdx_none_iff {l : List String} :
    findLineIdx p l = none ↔ ∀ x ∈ l, p x = false := by
  induction l with
  | nil => simp [findLineIdx]
  | cons x xs ih =>
    by_cases hx : p x <;> simp [findLineIdx, hx, ih]

theorem findLineIdx_append_left {l₁ l₂ : List String} {n : Nat}
    (h : findLineIdx p l₁ = some n) : findLineIdx p (l₁ ++ l₂) = some n := by
  induction l₁ generalizing n with
  | nil => simp [findLineIdx] at h
  | cons x xs ih =>
    by_cases hx : p x
    · simp [findLineIdx, hx] at h ⊢
      exact h
    · simp [findLineIdx, hx] at h ⊢
      rcases h with ⟨m, hm, rfl⟩
      exact ⟨m, ih hm, rfl⟩

theorem findLineIdx_append_none {l₁ l₂ : List String}
    (h : findLineIdx p l₁ = none) :
    findLineIdx p (l₁ ++ l₂) = (findLineIdx p l₂).map (· + l₁.length) := by
  induction l₁ with
  | nil => simp
  | cons x xs ih =>
    have hx : p x = false := (findLineIdx_none_iff.1 h) x (by simp)
    have hxs : findLineIdx p xs = none :=
      findLineIdx_none_iff.2 fun y hy => (findLineIdx_none_iff.1 h) y (by simp [hy])
    simp [findLineIdx, hx, ih hxs]

theorem findLineIdx_take_some {l : List String} {n m : Nat}
    (h : findLineIdx p l = some n) (hm : n < m) :
    findLineIdx p (l.take m) = some n := by
  induction l generalizing n m with
  | nil => simp [findLineIdx] at h
  | cons x xs ih =>
    by_cases hx : p x
    · simp [findLineIdx, hx] at h
      subst h
      rcases m with _ | m'
      · omega
      · simp [findLineIdx, hx]
    · simp [findLineIdx, hx] at h
      rcases h with ⟨k, hk, rfl⟩
      rcases m with _ | m'
      · omega
      · simp [findLineIdx, hx, ih hk (show k < m' by omega)]

theorem findLineIdx_take_none {l : List String} {n m : Nat}
    (h : findLineIdx p l = some n) (hm : m ≤ n) :
    findLineIdx p (l.take m) = none := by
  induction l generalizing n m with
  | nil => simp [findLineIdx] at h
  | cons x xs ih =>
    by_cases hx : p x
    · simp [findLineIdx, hx] at h
      rcases m with _ | m'
      · simp [findLineIdx]
      · omega
    · simp [findLineIdx, hx] at h
      rcases h with ⟨k, hk, rfl⟩
      rcases m with _ | m'
      · simp [findLineIdx]
      · simp [findLineIdx, hx, ih hk (show m' ≤ k by omega)]

theorem findLineIdx_drop_self {l : List String} {n : Nat}
    (h : findLineIdx p l = some n) : findLineIdx p (l.drop n) = some 0 := by
  induction l generalizing n with
  | nil => simp [findLineIdx] at h
  | cons x xs ih =>
    by_cases hx : p x
    · simp [findLineIdx, hx] at h
      subst h
      simp [findLineIdx, hx]
    · simp [findLineIdx, hx] at h
      rcases h with ⟨k, hk, rfl⟩
      simpa using ih hk

end FindLineIdx

/-! ## Lemmas: `mapWithIndex` -/

section MapWithIndex

universe u' v'
variable {α : Type u'} {β : Type v'} {f : Nat → α → β}

theorem length_mapWithIndex (k : Nat) (l : List α) :
    (mapWithIndex f k l).length = l.length := by
  induction l generalizing k with
  | nil => rfl
  | cons x xs ih => simp [mapWithIndex, ih]

theorem getElem?_mapWithIndex (k : Nat) (l : List α) (i : Nat) :
    (mapWithIndex f k l)[i]? = Option.map (f (k + i)) l[i]? := by
  induction l generalizing k i with
  | nil => simp [mapWithIndex]
  | cons x xs ih =>
    rcases i with _ | i'
    · simp [mapWithIndex]
    · simp [mapWithIndex, ih (k + 1) i']
      have : k + 1 + i' = k + (i' + 1) := by omega
      rw [this]

theorem mem_mapWithIndex {x : β} {k : Nat} {l : List α}
    (h : x ∈ mapWithIndex f k l) : ∃ j a, a ∈ l ∧ x = f j a := by
  induction l generalizing k with
  | nil => simp [mapWithIndex] at h
  | cons y ys ih =>
    simp [mapWithIndex] at h
    rcases h with rfl | h
    · exact ⟨k, y, by simp⟩
    · rcases ih h with ⟨j, a, ha, rfl⟩
      exact ⟨j, a, by simp [ha]⟩

end MapWithIndex

/-! ## Lemmas: generated transition lines are ordinary graph lines -/

theorem digitChar_ne_newline (n : Nat) : Nat.digitChar n ≠ '\n' := by
  match n with
  | 0 | 1 | 2 | 3 | 4 | 5 | 6 | 7 | 8 | 9 | 10 | 11 | 12 | 13 | 14 | 15 => decide
  | m + 16 =>
    unfold Nat.digitChar
    repeat rw [if_neg (by omega)]
    decide

theorem toDigitsCore_no_newline (b : Nat) (fuel : Nat) :
    ∀ (n : Nat) (ds : List Char), (∀ c ∈ ds, c ≠ '\n') →
      ∀ c ∈ Nat.toDigitsCore b fuel n ds, c ≠ '\n' := by
  induction fuel with
  | zero =>
    intro n ds hds c hc
    exact hds c (by simpa [Nat.toDigitsCore] using hc)
  | succ f ih =>
    intro n ds hds c hc
    rw [Nat.toDigitsCore] at hc
    by_cases hz : n / b = 0
    · rw [if_pos hz] at hc
      rcases List.mem_cons.1 hc with rfl | hc
      · exact digitChar_ne_newline (n % b)
      · exact hds c hc
    · rw [if_neg hz] at hc
      refine ih (n / b) (Nat.digitChar (n % b) :: ds) ?_ c hc
      intro c' hc'
      rcases List.mem_cons.1 hc' with rfl | hc'
      · exact digitChar_ne_newline (n % b)
      · exact hds c' hc'

theorem toString_nat_no_newline (n : Nat) : '\n' ∉ (toString n).data := by
  have h : (toString n).data = Nat.toDigitsCore 10 (n + 1) n [] := rfl
  rw [h]
  intro hc
  exact toDigitsCore_no_newline 10 (n + 1) n [] (by simp) '\n' hc rfl

theorem transitionLine_data (index : Nat) (name : String) :
    (transitionLine index name).data
      = ' ' :: ' ' :: ' ' :: ' ' :: '0'
        :: ([' ', '-', '>', ' ']
          ++ ((toString (index + 1)).data
            ++ (" [label=\"(".data ++ (name.data ++ ")\"];".data)))) := by
  simp only [transitionLine, String.data_append, List.append_assoc]
  rfl

theorem transitionLine_no_newline {index : Nat} {name : String} (h : '\n' ∉ name.data) :
    '\n' ∉ (transitionLine index name).data := by
  rw [transitionLine_data]
  intro hc
  simp only [List.mem_cons, List.mem_append] at hc
  rcases hc with hc | hc | hc | hc | hc | (hc | hc | (hc | (hc | hc)))
  · exact absurd hc (by decide)
  · exact absurd hc (by decide)
  · exact absurd hc (by decide)
  · exact absurd hc (by decide)
  · exact absurd hc (by decide)
  · exact absurd hc (by decide)
  · exact toString_nat_no_newline (index + 1) hc
  · exact absurd hc (by decide)
  · exact h hc
  · exact absurd hc (by decide)

theorem generatedLines_no_newline {names : List String} (h : ∀ n ∈ names, '\n' ∉ n.data)
    {l : String} (hl : l ∈ generatedLines names) : '\n' ∉ l.data := by
  obtain ⟨j, a, ha, rfl⟩ := mem_mapWithIndex hl
  exact transitionLine_no_newline (h a ha)

theorem length_generatedLines (names : List String) :
    (generatedLines names).length = names.length :=
  length_mapWithIndex 0 names

theorem dropWhile_append_last {p : Char → Bool} (A : List Char) {c : Char} (h : p c = false) :
    (A ++ [c]).dropWhile p = A.dropWhile p ++ [c] := by
  induction A with
  | nil => simp [List.dropWhile, h]
  | cons a A ih =>
    by_cases ha : p a <;> simp [List.dropWhile_cons, ha, ih]

theorem trimRight_cons {c : Char} (h : isSpaceChar c = false) (t : List Char) :
    ∃ t', ((c :: t).reverse.dropWhile isSpaceChar).reverse = c :: t' := by
  rw [List.reverse_cons, dropWhile_append_last t.reverse h, List.reverse_append]
  exact ⟨_, rfl⟩

theorem trimChars_transitionLine (index : Nat) (name : String) :
    ∃ t, trimChars (transitionLine index name).data = '0' :: t := by
  obtain ⟨R, hR⟩ :
      ∃ R, (transitionLine index name).data = ' ' :: ' ' :: ' ' :: ' ' :: '0' :: R :=
    ⟨_, transitionLine_data index name⟩
  unfold trimChars
  rw [hR]
  have h3 : (' ' :: ' ' :: ' ' :: ' ' :: '0' :: R).dropWhile isSpaceChar = '0' :: R := rfl
  rw [h3]
  exact trimRight_cons (by decide) R

theorem startsWithChars_iff {s p : List Char} :
    startsWithChars s p = true ↔ ∃ t, s = p ++ t := by
  induction p generalizing s with
  | nil =>
    simp [startsWithChars]
  | cons c cs ih =>
    cases s with
    | nil => simp [startsWithChars]
    | cons a as =>
      rw [show startsWithChars (a :: as) (c :: cs) = ((a == c) && startsWithChars as cs) from rfl]
      simp only [Bool.and_eq_true, beq_iff_eq, ih]
      constructor
      · rintro ⟨rfl, t, rfl⟩
        exact ⟨t, rfl⟩
      · rintro ⟨t, ht⟩
        injection ht with h1 h2
        exact ⟨h1, t, h2⟩

theorem isEndMarker_transitionLine (index : Nat) (name : String) :
    isEndMarker (transitionLine index name) = false := by
  obtain ⟨t, ht⟩ := trimChars_transitionLine index name
  unfold isEndMarker
  rw [ht]
  rfl

theorem isStartMarker_transitionLine (index : Nat) (name : String) :
    isStartMarker (transitionLine index name) = false := by
  obtain ⟨t, ht⟩ := trimChars_transitionLine index name
  unfold isStartMarker
  rw [ht]
  rfl

theorem isEndMarker_of_isStartMarker {l : String} (h : isStartMarker l = true) :
    isEndMarker l = false := by
  unfold isStartMarker at h
  obtain ⟨t, ht⟩ := startsWithChars_iff.1 h
  unfold isEndMarker
  rw [ht]
  rfl

/-! ## Lemmas: the composer on files with well-placed markers -/

theorem buildGraph_no_start {names : List String} {content : String}
    (h : findLineIdx isStartMarker (splitLines content) = none) :
    buildGraph names content = content := by
  unfold buildGraph
  rw [h]

theorem buildGraph_no_end {names : List String} {content : String}
    (h : findLineIdx isEndMarker (splitLines content) = none) :
    buildGraph names content = content := by
  unfold buildGraph
  rw [h]
  rcases findLineIdx isStartMarker (splitLines content) with _ | b <;> rfl

theorem buildGraph_out_of_order {names : List String} {content : String} {b e : Nat}
    (hb : findLineIdx isStartMarker (splitLines content) = some b)
    (he : findLineIdx isEndMarker (splitLines content) = some e)
    (h : e < b) : buildGraph names content = content := by
  unfold buildGraph
  rw [hb, he]
  simp only [gt_iff_lt]
  rw [if_pos h]

theorem buildGraph_of_markers {names : List String} {content : String} {b e : Nat}
    (hb : findLineIdx isStartMarker (splitLines content) = some b)
    (he : findLineIdx isEndMarker (splitLines content) = some e)
    (hbe : b ≤ e) :
    buildGraph names content
      = joinLines ((splitLines content).take (b + 1) ++ generatedLines names
          ++ (splitLines content).drop e) := by
  unfold buildGraph
  rw [hb, he]
  simp only [gt_iff_lt]
  rw [if_neg (by omega)]

theorem start_lt_end {content : String} {b e : Nat}
    (hb : findLineIdx isStartMarker (splitLines content) = some b)
    (he : findLineIdx isEndMarker (splitLines content) = some e)
    (hbe : b ≤ e) : b < e := by
  rcases Nat.lt_or_ge b e with h | h
  · exact h
  · exfalso
    have hbe' : b = e := by omega
    subst hbe'
    obtain ⟨x, hx, hpx⟩ := findLineIdx_getElem hb
    obtain ⟨y, hy, hpy⟩ := findLineIdx_getElem he
    rw [hx] at hy
    injection hy with hxy
    subst hxy
    rw [isEndMarker_of_isStartMarker hpx] at hpy
    exact Bool.false_ne_true hpy

theorem splitLines_buildGraph {names : List String} {content : String} {b e : Nat}
    (hb : findLineIdx isStartMarker (splitLines content) = some b)
    (he : findLineIdx isEndMarker (splitLines content) = some e)
    (hbe : b ≤ e) (hnames : ∀ n ∈ names, '\n' ∉ n.data) :
    splitLines (buildGraph names content)
      = (splitLines content).take (b + 1) ++ generatedLines names
          ++ (splitLines content).drop e := by
  rw [buildGraph_of_markers hb he hbe]
  have hblt : b < (splitLines content).length := findLineIdx_lt_length hb
  apply splitLines_joinLines
  · intro hnil
    rcases List.append_eq_nil.1 hnil with ⟨h1, h2⟩
    rcases List.append_eq_nil.1 h1 with ⟨h3, h4⟩
    have := congrArg List.length h3
    simp only [List.length_take, List.length_nil, Nat.min_eq_zero_iff] at this
    omega
  · intro s hs
    rcases List.mem_append.1 hs with hs | hs
    · rcases List.mem_append.1 hs with hs | hs
      · exact mem_splitLines_no_newline (List.mem_of_mem_take hs)
      · exact generatedLines_no_newline hnames hs
    · exact mem_splitLines_no_newline (List.mem_of_mem_drop hs)

theorem findLineIdx_take_succ_append {p : String → Bool} {l : List String} {n : Nat}
    (h : findLineIdx p l = some n) (rest : List String) :
    findLineIdx p (l.take (n + 1) ++ rest) = some n :=
  findLineIdx_append_left (findLineIdx_take_some h (by omega))

theorem generatedLines_no_end (names : List String) :
    findLineIdx isEndMarker (generatedLines names) = none := by
  apply findLineIdx_none_iff.2
  intro x hx
  obtain ⟨j, a, ha, rfl⟩ := mem_mapWithIndex hx
  exact isEndMarker_transitionLine j a

theorem findEnd_relocated {content : String} {b e : Nat} (names : List String)
    (hb : findLineIdx isStartMarker (splitLines content) = some b)
    (he : findLineIdx isEndMarker (splitLines content) = some e)
    (hlt : b < e) :
    findLineIdx isEndMarker
        ((splitLines content).take (b + 1) ++ generatedLines names
          ++ (splitLines content).drop e)
      = some (b + 1 + names.length) := by
  have hP : findLineIdx isEndMarker ((splitLines content).take (b + 1)) = none :=
    findLineIdx_take_none he (by omega)
  have hS : findLineIdx isEndMarker ((splitLines content).drop e) = some 0 :=
    findLineIdx_drop_self he
  have hlen : b < (splitLines content).length := findLineIdx_lt_length hb
  have hPG : findLineIdx isEndMarker
      ((splitLines content).take (b + 1) ++ generatedLines names) = none := by
    apply findLineIdx_none_iff.2
    intro x hx
    rcases List.mem_append.1 hx with hx | hx
    · exact findLineIdx_none_iff.1 hP x hx
    · obtain ⟨j, a, ha, rfl⟩ := mem_mapWithIndex hx
      exact isEndMarker_transitionLine j a
  rw [findLineIdx_append_none hPG, hS]
  simp only [Option.map_some', List.length_append, List.length_take, length_generatedLines]
  congr 1
  omega

theorem buildGraph_idem_of_no_newline {names : List String}
    (hnames : ∀ n ∈ names, '\n' ∉ n.data) (content : String) :
    buildGraph names (buildGraph names content) = buildGraph names content := by
  rcases hfb : findLineIdx isStartMarker (splitLines content) with _ | b
  · rw [buildGraph_no_start hfb, buildGraph_no_start hfb]
  · rcases hfe : findLineIdx isEndMarker (splitLines content) with _ | e
    · rw [buildGraph_no_end hfe, buildGraph_no_end hfe]
    · by_cases hbe : e < b
      · rw [buildGraph_out_of_order hfb hfe hbe, buildGraph_out_of_order hfb hfe hbe]
      · have hbe' : b ≤ e := by omega
        have hlt : b < e := start_lt_end hfb hfe hbe'
        have hout := splitLines_buildGraph hfb hfe hbe' hnames
        have hb' : findLineIdx isStartMarker (splitLines (buildGraph names content))
            = some b := by
          rw [hout, List.append_assoc]
          exact findLineIdx_take_succ_append hfb _
        have he' : findLineIdx isEndMarker (splitLines (buildGraph names content))
            = some (b + 1 + names.length) := by
          rw [hout]
          exact findEnd_relocated names hfb hfe hlt
        have hlen : b < (splitLines content).length := findLineIdx_lt_length hfb
        have hPlen : ((splitLines content).take (b + 1)).length = b + 1 := by
          rw [List.length_take]
          omega
        have htake : ((splitLines content).take (b + 1) ++ generatedLines names
              ++ (splitLines content).drop e).take (b + 1)
            = (splitLines content).take (b + 1) := by
          rw [List.append_assoc]
          exact List.take_left' hPlen
        have hdrop : ((splitLines content).take (b + 1) ++ generatedLines names
              ++ (splitLines content).drop e).drop (b + 1 + names.length)
            = (splitLines content).drop e :=
          List.drop_left' (by simp only [List.length_append, hPlen, length_generatedLines])
        rw [buildGraph_of_markers hb' he' (by omega), hout, htake, hdrop,
          buildGraph_of_markers hfb hfe hbe']

/-! ## Claims C1, C2, C3, C10: the module graph composer -/

/-- C1: when both marker lines are present and in order, `SpokenModule.buildGraph`
replaces everything strictly between the begin marker line and the end marker
line with exactly one transition line per command, in list order, the line for
the command at 0-based position `i` being a transition from state `0` to state
`i + 1` labeled with the command's name in parentheses. -/
theorem claim1_compose_inserts_transitions (names : List String) (content : String) (b e : Nat)
    (hb : findLineIdx isStartMarker (splitLines content) = some b)
    (he : findLineIdx isEndMarker (splitLines content) = some e)
    (hbe : b ≤ e)
    (hnames : ∀ n ∈ names, '\n' ∉ n.data) :
    splitLines (buildGraph names content)
      = (splitLines content).take (b + 1) ++ generatedLines names
          ++ (splitLines content).drop e
    ∧ (generatedLines names).length = names.length
    ∧ ∀ i name, names[i]? = some name →
        (generatedLines names)[i]?
          = some ("    0 -> " ++ toString (i + 1) ++ " [label=\"(" ++ name ++ ")\"];") := by
  refine ⟨splitLines_buildGraph hb he hbe hnames, length_generatedLines names, ?_⟩
  intro i name hname
  unfold generatedLines
  rw [getElem?_mapWithIndex, hname]
  simp [transitionLine]

/-- Witness for C1: the spec's own example, a module with commands
`create` and `delete`. -/
theorem claim1_witness :
    findLineIdx isStartMarker
        (splitLines "digraph \x7b\n// START GENERATED\n// END GENERATED\n\x7d") = some 1
    ∧ findLineIdx isEndMarker
        (splitLines "digraph \x7b\n// START GENERATED\n// END GENERATED\n\x7d") = some 2
    ∧ 1 ≤ 2
    ∧ (∀ n ∈ ["create", "delete"], '\n' ∉ n.data)
    ∧ (splitLines (buildGraph ["create", "delete"]
          "digraph \x7b\n// START GENERATED\n// END GENERATED\n\x7d")
        = (splitLines "digraph \x7b\n// START GENERATED\n// END GENERATED\n\x7d").take 2
            ++ generatedLines ["create", "delete"]
            ++ (splitLines "digraph \x7b\n// START GENERATED\n// END GENERATED\n\x7d").drop 2
      ∧ (generatedLines ["create", "delete"]).length = (["create", "delete"] : List String).length
      ∧ ∀ i name, (["create", "delete"] : List String)[i]? = some name →
          (generatedLines ["create", "delete"])[i]?
            = some ("    0 -> " ++ toString (i + 1) ++ " [label=\"(" ++ name ++ ")\"];")) :=
  ⟨by decide, by decide, by decide, by decide,
    claim1_compose_inserts_transitions ["create", "delete"]
      "digraph \x7b\n// START GENERATED\n// END GENERATED\n\x7d" 1 2
      (by decide) (by decide) (by decide) (by decide)⟩

/-- C2 counterexample: for the command list `["x\n// END GENERATED"]` (a name
containing a newline that injects a line starting with the end marker), running
the composer twice on a marker-delimited file does not reproduce the output of
running it once, so idempotence fails for an arbitrary fixed command list. -/
theorem claim2_counterexample :
    buildGraph ["x\n// END GENERATED"]
        (buildGraph ["x\n// END GENERATED"]
          "digraph \x7b\n// START GENERATED\n// END GENERATED\n\x7d")
      ≠ buildGraph ["x\n// END GENERATED"]
          "digraph \x7b\n// START GENERATED\n// END GENERATED\n\x7d" := by
  decide

/-- C2 (amended): for every module automaton file content and every command
list whose names contain no newline character, applying the composer twice
yields a file byte-identical to applying it once. -/
theorem claim2_amended_idempotent (names : List String) (content : String)
    (hnames : ∀ n ∈ names, '\n' ∉ n.data) :
    buildGraph names (buildGraph names content) = buildGraph names content :=
  buildGraph_idem_of_no_newline hnames content

/-- Witness for the amended C2 at a concrete file and command list. -/
theorem claim2_witness :
    (∀ n ∈ ["create", "delete"], '\n' ∉ n.data)
    ∧ buildGraph ["create", "delete"]
          (buildGraph ["create", "delete"]
            "digraph \x7b\n// START GENERATED\nold\n// END GENERATED\n\x7d")
        = buildGraph ["create", "delete"]
            "digraph \x7b\n// START GENERATED\nold\n// END GENERATED\n\x7d" :=
  ⟨by decide, claim2_amended_idempotent ["create", "delete"]
    "digraph \x7b\n// START GENERATED\nold\n// END GENERATED\n\x7d" (by decide)⟩

/-- C3: if the begin marker line is absent, the end marker line is absent, or
the begin marker occurs after the end marker, the composer takes its warning
branch (`console.warn`, no exception) and leaves the file content unchanged. -/
theorem claim3_markers_missing_skip (names : List String) (content : String)
    (h : findLineIdx isStartMarker (splitLines content) = none
      ∨ findLineIdx isEndMarker (splitLines content) = none
      ∨ ∃ b e, findLineIdx isStartMarker (splitLines content) = some b
          ∧ findLineIdx isEndMarker (splitLines content) = some e ∧ e < b) :
    composeSkipped content = true ∧ buildGraph names content = content := by
  rcases h with h | h | ⟨b, e, hb, he, hlt⟩
  · constructor
    · unfold composeSkipped
      rw [h]
    · exact buildGraph_no_start h
  · constructor
    · unfold composeSkipped
      rw [h]
      rcases findLineIdx isStartMarker (splitLines content) with _ | b <;> rfl
    · exact buildGraph_no_end h
  · constructor
    · unfold composeSkipped
      rw [hb, he]
      simp [hlt]
    · exact buildGraph_out_of_order hb he hlt

/-- Witness for C3: a file with no markers at all is left unchanged. -/
theorem claim3_witness :
    (findLineIdx isStartMarker (splitLines "digraph g \x7b\n  0 -> 1;\n\x7d") = none
      ∨ findLineIdx isEndMarker (splitLines "digraph g \x7b\n  0 -> 1;\n\x7d") = none
      ∨ ∃ b e, findLineIdx isStartMarker (splitLines "digraph g \x7b\n  0 -> 1;\n\x7d") = some b
          ∧ findLineIdx isEndMarker (splitLines "digraph g \x7b\n  0 -> 1;\n\x7d") = some e ∧ e < b)
    ∧ composeSkipped "digraph g \x7b\n  0 -> 1;\n\x7d" = true
    ∧ buildGraph ["create"] "digraph g \x7b\n  0 -> 1;\n\x7d" = "digraph g \x7b\n  0 -> 1;\n\x7d" :=
  ⟨Or.inl (by decide),
    claim3_markers_missing_skip ["create"] "digraph g \x7b\n  0 -> 1;\n\x7d" (Or.inl (by decide))⟩

/-- C10: when composition applies, every line up to and including the first
begin-marker line and every line from the first end-marker line to the end of
the file survive unchanged, and in particular the two marker lines are the
first markers of the rewritten file. -/
theorem claim10_frame_preserved (names : List String) (content : String) (b e : Nat)
    (hb : findLineIdx isStartMarker (splitLines content) = some b)
    (he : findLineIdx isEndMarker (splitLines content) = some e)
    (hbe : b ≤ e)
    (hnames : ∀ n ∈ names, '\n' ∉ n.data) :
    (splitLines (buildGraph names content)).take (b + 1) = (splitLines content).take (b + 1)
    ∧ (splitLines (buildGraph names content)).drop (b + 1 + names.length)
        = (splitLines content).drop e
    ∧ findLineIdx isStartMarker (splitLines (buildGraph names content)) = some b
    ∧ findLineIdx isEndMarker (splitLines (buildGraph names content))
        = some (b + 1 + names.length) := by
  have hlt : b < e := start_lt_end hb he hbe
  have hout := splitLines_buildGraph hb he hbe hnames
  have hlen : b < (splitLines content).length := findLineIdx_lt_length hb
  have hPlen : ((splitLines content).take (b + 1)).length = b + 1 := by
    rw [List.length_take]
    omega
  refine ⟨?_, ?_, ?_, ?_⟩
  · rw [hout, List.append_assoc]
    exact List.take_left' hPlen
  · rw [hout]
    exact List.drop_left' (by simp only [List.length_append, hPlen, length_generatedLines])
  · rw [hout, List.append_assoc]
    exact findLineIdx_take_succ_append hb _
  · rw [hout]
    exact findEnd_relocated names hb he hlt

/-! ## Lemmas and claim C4: stored phrase lists -/

theorem dedupFirst_nodup (l : List String) : (dedupFirst l).Nodup := by
  induction l with
  | nil => simp [dedupFirst]
  | cons x xs ih =>
    rw [dedupFirst, List.nodup_cons]
    refine ⟨?_, List.Nodup.filter _ ih⟩
    intro hx
    have := (List.mem_filter.1 hx).2
    simp at this

/-- C4: the phrase list the pipeline stores
(`allRecognizablePhrases(...).slice(0, 16)`) is duplicate-free, has at most 16
entries, and is the prefix of the first phrases in the enumerator's
deterministic traversal order. -/
theorem claim4_stored_phrases_bounded_nodup (traversal : List String) :
    (storedPhrases traversal).Nodup
    ∧ (storedPhrases traversal).length ≤ 16
    ∧ ∃ rest, allRecognizablePhrases traversal = storedPhrases traversal ++ rest := by
  refine ⟨?_, ?_, ⟨(allRecognizablePhrases traversal).drop 16,
    (List.take_append_drop 16 _).symm⟩⟩
  · exact List.Nodup.sublist (List.take_sublist 16 _) (dedupFirst_nodup traversal)
  · rw [storedPhrases, List.length_take]
    omega

/-! ## Lemmas and claim C5: one error aborts the rest of the batch -/

theorem runCommands_append_error (step : String → Except String Unit) (modName : String)
    (cs₁ : List CmdSpec) (c : CmdSpec) (cs₂ : List CmdSpec) (e : String)
    (h₁ : ∀ c' ∈ cs₁, processAutomatas step c'.automatas = .ok ())
    (h₂ : processAutomatas step c.automatas = .error e) :
    runCommands step modName (cs₁ ++ c :: cs₂)
      = (cs₁.map (fun c' => BuildEvent.wroteCommandReadme modName c'.name), some e) := by
  induction cs₁ with
  | nil =>
    rw [List.nil_append, runCommands, h₂]
    rfl
  | cons d ds ih =>
    have hd : processAutomatas step d.automatas = .ok () := h₁ d (by simp)
    rw [List.cons_append, runCommands, hd]
    rw [ih (fun c' hc' => h₁ c' (List.mem_cons_of_mem d hc'))]
    rfl

/-- C5 counterexample: with one module `m` whose first command `c1` has an
automaton raising `GraphLoadError` and whose sibling command `c2` is healthy,
`main` writes no README for `c2` (nor any other unit of work) — the error
aborts the whole batch rather than only the failing command. -/
theorem claim5_counterexample :
    BuildEvent.wroteCommandReadme "m" "c2"
        ∉ (mainRun (fun a => if a = "a1" then .error "GraphLoadError" else .ok ())
            [⟨"m", [⟨"c1", ["a1"]⟩, ⟨"c2", ["a2"]⟩]⟩]).1
    ∧ (mainRun (fun a => if a = "a1" then .error "GraphLoadError" else .ok ())
        [⟨"m", [⟨"c1", ["a1"]⟩, ⟨"c2", ["a2"]⟩]⟩]).2 = some "GraphLoadError" := by
  decide

/-- C5 (amended): `main` has no `try`/`catch`, so an error raised while
processing one command's automata is fatal to the whole batch: the completed
units of work are exactly the READMEs of the commands preceding the failing
one in the same module, and no later command, module-level step or later
module runs at all. -/
theorem claim5_amended_error_aborts_batch (step : String → Except String Unit)
    (modName : String) (cs₁ : List CmdSpec) (c : CmdSpec) (cs₂ : List CmdSpec)
    (ms : List ModSpec) (e : String)
    (h₁ : ∀ c' ∈ cs₁, processAutomatas step c'.automatas = .ok ())
    (h₂ : processAutomatas step c.automatas = .error e) :
    mainRun step (⟨modName, cs₁ ++ c :: cs₂⟩ :: ms)
      = (cs₁.map (fun c' => BuildEvent.wroteCommandReadme modName c'.name), some e) := by
  rw [mainRun]
  have hrm : runModule step ⟨modName, cs₁ ++ c :: cs₂⟩
      = (cs₁.map (fun c' => BuildEvent.wroteCommandReadme modName c'.name), some e) := by
    rw [runModule]
    rw [show (ModSpec.mk modName (cs₁ ++ c :: cs₂)).name = modName from rfl,
      show (ModSpec.mk modName (cs₁ ++ c :: cs₂)).commands = cs₁ ++ c :: cs₂ from rfl]
    rw [runCommands_append_error step modName cs₁ c cs₂ e h₁ h₂]
  rw [hrm]

/-- Witness for the amended C5: a concrete batch where the second command of
module `m` fails; only the first command's README is written and the error
propagates. -/
theorem claim5_witness :
    (∀ c' ∈ [(⟨"c0", ["a0"]⟩ : CmdSpec)],
      processAutomatas (fun a => if a = "a1" then .error "boom" else .ok ()) c'.automatas
        = .ok ())
    ∧ processAutomatas (fun a => if a = "a1" then .error "boom" else .ok ())
        (CmdSpec.mk "c1" ["a1"]).automatas = .error "boom"
    ∧ mainRun (fun a => if a = "a1" then .error "boom" else .ok ())
        [⟨"m", [⟨"c0", ["a0"]⟩] ++ ⟨"c1", ["a1"]⟩ :: [⟨"c2", ["a2"]⟩]⟩, ⟨"n", [⟨"c3", ["a3"]⟩]⟩]
      = ([BuildEvent.wroteCommandReadme "m" "c0"], some "boom") := by
  refine ⟨?_, rfl, ?_⟩
  · intro c' hc'
    rcases List.mem_singleton.1 hc' with rfl
    rfl
  · exact claim5_amended_error_aborts_batch
      (fun a => if a = "a1" then .error "boom" else .ok ()) "m"
      [⟨"c0", ["a0"]⟩] ⟨"c1", ["a1"]⟩ [⟨"c2", ["a2"]⟩] [⟨"n", [⟨"c3", ["a3"]⟩]⟩] "boom"
      (by intro c' hc'; rcases List.mem_singleton.1 hc' with rfl; rfl) rfl

/-! ## Lemmas and claim C6: command steps precede module steps -/

theorem isCommandStep_evModuleIdx {mi : Nat} {ev : PipelineEvent}
    (h : isCommandStep mi ev = true) : evModuleIdx ev = mi := by
  cases ev <;> simp_all [isCommandStep, evModuleIdx]

theorem isModuleStep_evModuleIdx {mi : Nat} {ev : PipelineEvent}
    (h : isModuleStep mi ev = true) : evModuleIdx ev = mi := by
  cases ev <;> simp_all [isModuleStep, evModuleIdx]

theorem mem_commandSteps_shape {mi ci n : Nat} {ev : PipelineEvent}
    (h : ev ∈ commandSteps mi ci n) :
    evModuleIdx ev = mi ∧ ∀ k, isModuleStep k ev = false := by
  unfold commandSteps at h
  rcases List.mem_append.1 h with h | h
  · obtain ⟨ai, _, hmem⟩ := List.mem_flatMap.1 h
    rcases List.mem_cons.1 hmem with rfl | hmem
    · exact ⟨rfl, fun k => rfl⟩
    · rcases List.mem_cons.1 hmem with rfl | hmem
      · exact ⟨rfl, fun k => rfl⟩
      · simp at hmem
  · rcases List.mem_singleton.1 h with rfl
    exact ⟨rfl, fun k => rfl⟩

theorem mem_moduleSteps_evModuleIdx {mi : Nat} {cmds : List Nat} {ev : PipelineEvent}
    (h : ev ∈ moduleSteps mi cmds) : evModuleIdx ev = mi := by
  unfold moduleSteps at h
  rcases List.mem_append.1 h with h | h
  · obtain ⟨blk, hblk, hev⟩ := List.mem_flatten.1 h
    obtain ⟨ci, n, hn, rfl⟩ := mem_mapWithIndex hblk
    exact (mem_commandSteps_shape hev).1
  · simp at h
    rcases h with rfl | rfl | rfl <;> rfl

theorem moduleSteps_tail_not_command {mi k : Nat} {ev : PipelineEvent}
    (h : ev ∈ [PipelineEvent.moduleGraph mi, .moduleImage mi, .moduleReadme mi]) :
    isCommandStep k ev = false := by
  simp at h
  rcases h with rfl | rfl | rfl <;> rfl

theorem moduleSteps_command_before_module {mi k : Nat} {cmds : List Nat} {i j : Nat}
    {e1 e2 : PipelineEvent}
    (h1 : (moduleSteps mi cmds)[i]? = some e1)
    (h2 : (moduleSteps mi cmds)[j]? = some e2)
    (hc : isCommandStep k e1 = true)
    (hm : isModuleStep k e2 = true) : i < j := by
  unfold moduleSteps at h1 h2
  have hi : i < ((mapWithIndex (fun ci n => commandSteps mi ci n) 0 cmds).flatten).length := by
    by_contra hge
    push_neg at hge
    rw [List.getElem?_append_right hge] at h1
    have hmem : e1 ∈ [PipelineEvent.moduleGraph mi, .moduleImage mi, .moduleReadme mi] :=
      List.getElem?_mem h1
    rw [moduleSteps_tail_not_command hmem] at hc
    exact Bool.false_ne_true hc
  have hj : ¬ j < ((mapWithIndex (fun ci n => commandSteps mi ci n) 0 cmds).flatten).length := by
    intro hlt
    rw [List.getElem?_append, if_pos hlt] at h2
    have hmem := List.getElem?_mem h2
    obtain ⟨blk, hblk, hev⟩ := List.mem_flatten.1 hmem
    obtain ⟨ci, n, hn, rfl⟩ := mem_mapWithIndex hblk
    rw [(mem_commandSteps_shape hev).2 k] at hm
    exact Bool.false_ne_true hm
  omega

theorem mem_mainTraceAux {blocks : List (Nat × List Nat)} {ev : PipelineEvent}
    (h : ev ∈ mainTraceAux blocks) : ∃ p ∈ blocks, evModuleIdx ev = p.1 := by
  induction blocks with
  | nil => simp [mainTraceAux] at h
  | cons blk rest ih =>
    obtain ⟨mi0, cmds⟩ := blk
    rw [mainTraceAux] at h
    rcases List.mem_append.1 h with h | h
    · exact ⟨(mi0, cmds), by simp, mem_moduleSteps_evModuleIdx h⟩
    · obtain ⟨p, hp, hev⟩ := ih h
      exact ⟨p, by simp [hp], hev⟩

theorem mainTraceAux_order (blocks : List (Nat × List Nat))
    (hpw : blocks.Pairwise (fun p q => p.1 ≠ q.1)) :
    ∀ (i j : Nat) (e1 e2 : PipelineEvent) (mi : Nat),
      (mainTraceAux blocks)[i]? = some e1 →
      (mainTraceAux blocks)[j]? = some e2 →
      isCommandStep mi e1 = true → isModuleStep mi e2 = true → i < j := by
  induction blocks with
  | nil =>
    intro i j e1 e2 mi h1
    simp [mainTraceAux] at h1
  | cons blk rest ih =>
    intro i j e1 e2 mi h1 h2 hc hm
    obtain ⟨mi0, cmds⟩ := blk
    obtain ⟨hhead, htail⟩ := List.pairwise_cons.1 hpw
    rw [mainTraceAux] at h1 h2
    by_cases hi : i < (moduleSteps mi0 cmds).length
    · by_cases hj : j < (moduleSteps mi0 cmds).length
      · rw [List.getElem?_append, if_pos hi] at h1
        rw [List.getElem?_append, if_pos hj] at h2
        exact moduleSteps_command_before_module h1 h2 hc hm
      · omega
    · push_neg at hi
      rw [List.getElem?_append_right hi] at h1
      obtain ⟨p, hp, hev⟩ := mem_mainTraceAux (List.getElem?_mem h1)
      by_cases hj : j < (moduleSteps mi0 cmds).length
      · exfalso
        rw [List.getElem?_append, if_pos hj] at h2
        have he2 : evModuleIdx e2 = mi0 := mem_moduleSteps_evModuleIdx (List.getElem?_mem h2)
        have he2' : evModuleIdx e2 = mi := isModuleStep_evModuleIdx hm
        have he1 : evModuleIdx e1 = mi := isCommandStep_evModuleIdx hc
        exact hhead p hp (by rw [← hev, he1, ← he2', he2])
      · push_neg at hj
        rw [List.getElem?_append_right hj] at h2
        have := ih htail (i - (moduleSteps mi0 cmds).length)
          (j - (moduleSteps mi0 cmds).length) e1 e2 mi h1 h2 hc hm
        omega

theorem mem_mapWithIndex_pair_fst {l : List (List Nat)} {k : Nat} {q : Nat × List Nat}
    (h : q ∈ mapWithIndex (fun mi cmds => (mi, cmds)) k l) : k ≤ q.1 := by
  induction l generalizing k with
  | nil => simp [mapWithIndex] at h
  | cons m ms ih =>
    rcases List.mem_cons.1 h with rfl | h
    · simp
    · exact Nat.le_of_succ_le (ih h)

theorem mapWithIndex_pair_pairwise (modules : List (List Nat)) (k : Nat) :
    (mapWithIndex (fun mi cmds => (mi, cmds)) k modules).Pairwise (fun p q => p.1 ≠ q.1) := by
  induction modules generalizing k with
  | nil => exact List.Pairwise.nil
  | cons m ms ih =>
    rw [mapWithIndex, List.pairwise_cons]
    refine ⟨?_, ih (k + 1)⟩
    intro q hq
    have := mem_mapWithIndex_pair_fst hq
    simp only []
    omega

/-- C6: in `main`, every command-scoped step of a module (automaton image
rendering, automaton loading and phrase storage, command README writing)
occurs strictly before every module-scoped step of the same module (automaton
composition, module image rendering, module README writing). -/
theorem claim6_commands_before_module_steps (modules : List (List Nat)) (mi i j : Nat)
    (e1 e2 : PipelineEvent)
    (h1 : (mainTrace modules)[i]? = some e1)
    (h2 : (mainTrace modules)[j]? = some e2)
    (hc : isCommandStep mi e1 = true)
    (hm : isModuleStep mi e2 = true) : i < j :=
  mainTraceAux_order _ (mapWithIndex_pair_pairwise modules 0) i j e1 e2 mi h1 h2 hc hm

/-- Witness for C6: one module with one single-automaton command; the command
README step (index 2) precedes the module composition step (index 3). -/
theorem claim6_witness :
    (mainTrace [[1]])[2]? = some (PipelineEvent.commandReadme 0 0)
    ∧ (mainTrace [[1]])[3]? = some (PipelineEvent.moduleGraph 0)
    ∧ isCommandStep 0 (PipelineEvent.commandReadme 0 0) = true
    ∧ isModuleStep 0 (PipelineEvent.moduleGraph 0) = true
    ∧ 2 < 3 :=
  ⟨by decide, by decide, by decide, by decide,
    claim6_commands_before_module_steps [[1]] 0 2 3
      (PipelineEvent.commandReadme 0 0) (PipelineEvent.moduleGraph 0)
      (by decide) (by decide) (by decide) (by decide)⟩

/-- Witness for C10 at a concrete module automaton containing an already-filled
generated region. -/
theorem claim10_witness :
    findLineIdx isStartMarker
        (splitLines "digraph g \x7b\n// START GENERATED\nmid\n// END GENERATED\n\x7d") = some 1
    ∧ findLineIdx isEndMarker
        (splitLines "digraph g \x7b\n// START GENERATED\nmid\n// END GENERATED\n\x7d") = some 3
    ∧ 1 ≤ 3
    ∧ (∀ n ∈ ["delete"], '\n' ∉ n.data)
    ∧ ((splitLines (buildGraph ["delete"]
            "digraph g \x7b\n// START GENERATED\nmid\n// END GENERATED\n\x7d")).take 2
        = (splitLines "digraph g \x7b\n// START GENERATED\nmid\n// END GENERATED\n\x7d").take 2
      ∧ (splitLines (buildGraph ["delete"]
            "digraph g \x7b\n// START GENERATED\nmid\n// END GENERATED\n\x7d")).drop 3
          = (splitLines "digraph g \x7b\n// START GENERATED\nmid\n// END GENERATED\n\x7d").drop 3
      ∧ findLineIdx isStartMarker (splitLines (buildGraph ["delete"]
            "digraph g \x7b\n// START GENERATED\nmid\n// END GENERATED\n\x7d")) = some 1
      ∧ findLineIdx isEndMarker (splitLines (buildGraph ["delete"]
            "digraph g \x7b\n// START GENERATED\nmid\n// END GENERATED\n\x7d")) = some 3) :=
  ⟨by decide, by decide, by decide, by decide,
    claim10_frame_preserved ["delete"]
      "digraph g \x7b\n// START GENERATED\nmid\n// END GENERATED\n\x7d" 1 3
      (by decide) (by decide) (by decide) (by decide)⟩

/-! ## Lemmas and claims C7, C8, C9: the command README assembler -/

theorem i18n_isSome_iff (lang : String) :
    (i18n lang).isSome = true ↔ (lang = "en-US" ∨ lang = "pt-BR") := by
  unfold i18n
  by_cases h1 : lang = "en-US"
  · simp [h1]
  · by_cases h2 : lang = "pt-BR" <;> simp [h1, h2]

theorem langSectionParts_eq_flatMap (automatas : List AutomataDoc)
    (h : ∀ a ∈ automatas, a.lang = "en-US" ∨ a.lang = "pt-BR") :
    langSectionParts automatas
      = some (automatas.flatMap (fun a => langBlock (i18nD a.lang) a)) := by
  induction automatas with
  | nil => rfl
  | cons a rest ih =>
    have ha : (i18n a.lang).isSome = true := (i18n_isSome_iff a.lang).2 (h a (by simp))
    obtain ⟨entry, hentry⟩ := Option.isSome_iff_exists.1 ha
    rw [langSectionParts, hentry, ih (fun x hx => h x (List.mem_cons_of_mem a hx))]
    simp [i18nD, hentry]

theorem langSectionParts_isSome_iff (automatas : List AutomataDoc) :
    (langSectionParts automatas).isSome = true
      ↔ ∀ a ∈ automatas, (i18n a.lang).isSome = true := by
  induction automatas with
  | nil => simp [langSectionParts]
  | cons a rest ih =>
    rw [langSectionParts]
    rcases hi : i18n a.lang with _ | entry
    · simp [hi]
    · simp [hi, ih]

/-- C7: under the conditions in which `Command.buildReadme` produces Markdown,
the language section contains one block per automaton of the command, in
order and with none dropped; each block is headed by the language's
human-readable name, carries the image reference for that language's
automaton, and ends with the phrase list numbered consecutively from 1 in
phrase-list order. -/
theorem claim7_readme_has_all_lang_sections (c : Command)
    (hen : (c.automatas.find? (fun a => a.lang == "en-US")).isSome = true)
    (hlang : ∀ a ∈ c.automatas, a.lang = "en-US" ∨ a.lang = "pt-BR") :
    (∃ md, buildReadme c = some md)
    ∧ buildLangSection c
        = some (String.intercalate "\n\n"
            (c.automatas.flatMap (fun a => langBlock (i18nD a.lang) a)))
    ∧ (∀ a ∈ c.automatas,
        (langBlock (i18nD a.lang) a)[0]? = some ("#### " ++ a.langName)
        ∧ (langBlock (i18nD a.lang) a)[2]?
            = some ("![" ++ a.langName ++ "](" ++ a.relativeImagePath ++ ")")
        ∧ (langBlock (i18nD a.lang) a)[4]?
            = some (String.intercalate "\n" (numberedPhraseLines a.phrases)))
    ∧ (∀ a ∈ c.automatas,
        (numberedPhraseLines a.phrases).length = a.phrases.length
        ∧ ∀ i phrase, a.phrases[i]? = some phrase →
            (numberedPhraseLines a.phrases)[i]?
              = some (toString (i + 1) ++ ". " ++ phrase)) := by
  have hparts := langSectionParts_eq_flatMap c.automatas hlang
  have hls : buildLangSection c
      = some (String.intercalate "\n\n"
          (c.automatas.flatMap (fun a => langBlock (i18nD a.lang) a))) := by
    rw [buildLangSection, hparts]
    rfl
  refine ⟨?_, hls, ?_, ?_⟩
  · obtain ⟨autom, hautom⟩ := Option.isSome_iff_exists.1 hen
    rw [buildReadme, hautom, hls]
    exact ⟨_, rfl⟩
  · intro a ha
    exact ⟨rfl, rfl, rfl⟩
  · intro a ha
    refine ⟨length_mapWithIndex 0 _, ?_⟩
    intro i phrase hph
    rw [numberedPhraseLines, getElem?_mapWithIndex, hph]
    simp

/-- Witness for C7 at the concrete command `openCommand` (one English and one
Portuguese automaton). -/
theorem claim7_witness :
    ((openCommand.automatas.find? (fun a => a.lang == "en-US")).isSome = true)
    ∧ (∀ a ∈ openCommand.automatas, a.lang = "en-US" ∨ a.lang = "pt-BR")
    ∧ ((∃ md, buildReadme openCommand = some md)
      ∧ buildLangSection openCommand
          = some (String.intercalate "\n\n"
              (openCommand.automatas.flatMap (fun a => langBlock (i18nD a.lang) a)))
      ∧ (∀ a ∈ openCommand.automatas,
          (langBlock (i18nD a.lang) a)[0]? = some ("#### " ++ a.langName)
          ∧ (langBlock (i18nD a.lang) a)[2]?
              = some ("![" ++ a.langName ++ "](" ++ a.relativeImagePath ++ ")")
          ∧ (langBlock (i18nD a.lang) a)[4]?
              = some (String.intercalate "\n" (numberedPhraseLines a.phrases)))
      ∧ (∀ a ∈ openCommand.automatas,
          (numberedPhraseLines a.phrases).length = a.phrases.length
          ∧ ∀ i phrase, a.phrases[i]? = some phrase →
              (numberedPhraseLines a.phrases)[i]?
                = some (toString (i + 1) ++ ". " ++ phrase))) :=
  ⟨by decide, by decide,
    claim7_readme_has_all_lang_sections openCommand (by decide) (by decide)⟩

/-- C8: under the conditions in which `Command.buildReadme` produces Markdown,
the README ends with the implementation excerpt: a `typescript` code fence
opening, the first 300 characters of the command's `impl.ts` source, a blank
line and the ellipsis marker `(...)` closing the fence. -/
theorem claim8_implementation_excerpt (c : Command)
    (hen : (c.automatas.find? (fun a => a.lang == "en-US")).isSome = true)
    (hlang : ∀ a ∈ c.automatas, a.lang = "en-US" ∨ a.lang = "pt-BR") :
    (∃ pre, buildReadme c
        = some (pre ++ ("```typescript\n" ++ substrTake c.code 300)
            ++ "\n\n" ++ "(...)\n```"))
    ∧ (substrTake c.code 300).data = c.code.data.take 300 := by
  refine ⟨?_, rfl⟩
  obtain ⟨autom, hautom⟩ := Option.isSome_iff_exists.1 hen
  have hparts := langSectionParts_eq_flatMap c.automatas hlang
  have hls : buildLangSection c
      = some (String.intercalate "\n\n"
          (c.automatas.flatMap (fun a => langBlock (i18nD a.lang) a))) := by
    rw [buildLangSection, hparts]
    rfl
  rw [buildReadme, hautom, hls]
  refine ⟨"## " ++ autom.title ++ "\n\n" ++ autom.desc ++ "\n\n" ++ "### Languages"
    ++ "\n\n" ++ "This command is available in the following languages" ++ "\n\n"
    ++ String.intercalate "\n\n"
        (c.automatas.flatMap (fun a => langBlock (i18nD a.lang) a))
    ++ "\n\n" ++ "### Implementation" ++ "\n\n"
    ++ "The full implementation of this command can be found on this directory under the file [impl.ts](impl.ts)"
    ++ "\n\n", ?_⟩
  rfl

/-- Witness for C8 at the concrete command `openCommand`. -/
theorem claim8_witness :
    ((openCommand.automatas.find? (fun a => a.lang == "en-US")).isSome = true)
    ∧ (∀ a ∈ openCommand.automatas, a.lang = "en-US" ∨ a.lang = "pt-BR")
    ∧ ((∃ pre, buildReadme openCommand
        = some (pre ++ ("```typescript\n" ++ substrTake openCommand.code 300)
            ++ "\n\n" ++ "(...)\n```"))
      ∧ (substrTake openCommand.code 300).data = openCommand.code.data.take 300) :=
  ⟨by decide, by decide,
    claim8_implementation_excerpt openCommand (by decide) (by decide)⟩

/-- C9: `Command.buildReadme` produces Markdown exactly when the command has
an `en-US` automaton and every automaton's `lang` is `en-US` or `pt-BR`;
otherwise it throws (modelled as `none`). -/
theorem claim9_buildReadme_defined_iff (c : Command) :
    (buildReadme c).isSome = true
      ↔ ((c.automatas.any (fun a => a.lang == "en-US")) = true
          ∧ ∀ a ∈ c.automatas, a.lang = "en-US" ∨ a.lang = "pt-BR") := by
  rcases hfind : c.automatas.find? (fun a => a.lang == "en-US") with _ | autom
  · rw [buildReadme]
    simp only [hfind]
    constructor
    · intro h
      simp at h
    · rintro ⟨hany, -⟩
      obtain ⟨x, hx, hpx⟩ := List.any_eq_true.1 hany
      exact absurd hpx (List.find?_eq_none.1 hfind x hx)
  · have hmem := List.mem_of_find?_eq_some hfind
    have hpx := List.find?_some hfind
    have hany : c.automatas.any (fun a => a.lang == "en-US") = true :=
      List.any_eq_true.2 ⟨autom, hmem, hpx⟩
    rw [buildReadme]
    simp only [hfind]
    rcases hls : buildLangSection c with _ | s
    · simp only [hls]
      constructor
      · intro h
        simp at h
      · rintro ⟨-, hlang⟩
        have hsome : (langSectionParts c.automatas).isSome = true :=
          (langSectionParts_isSome_iff c.automatas).2
            (fun a ha => (i18n_isSome_iff a.lang).2 (hlang a ha))
        rw [buildLangSection] at hls
        obtain ⟨parts, hparts⟩ := Option.isSome_iff_exists.1 hsome
        rw [hparts] at hls
        simp at hls
    · simp only [hls]
      constructor
      · intro _
        refine ⟨hany, ?_⟩
        intro a ha
        have hps : (langSectionParts c.automatas).isSome = true := by
          rw [buildLangSection] at hls
          rcases hp : langSectionParts c.automatas with _ | parts
          · rw [hp] at hls
            simp at hls
          · simp
        exact (i18n_isSome_iff a.lang).1
          ((langSectionParts_isSome_iff c.automatas).1 hps a ha)
      · intro _
        simp

end Speech2Code
